import Mathlib

/-!
Shallow embedding of the `own` STL (src/include/list.hpp, stack.hpp, queue.hpp):
a doubly linked list over an explicit heap of nodes, with the queue/stack
adapters on top.

Modelling conventions:
* A node address is a `Nat` index into `Heap.slots`; the C++ null pointer is
  `none : Option Nat`; a freed (`delete`d) slot holds `none`.
* `usize` is modelled as `Nat`.  The wrap-around of unsigned subtraction can
  only be observed on empty lists, where the C++ code dereferences a null
  pointer (undefined behaviour) anyway; these states are modelled as `none`.
* Fallible steps (dereferencing a possibly-null or freed pointer, loops whose
  termination the C++ code does not guarantee) are modelled in the `Option`
  monad; `none` means the source program's behaviour is undefined (or the
  given fuel, always chosen at least the number of heap slots, ran out,
  which on any well-formed list never happens).
* Loops are modelled with explicit fuel `h.slots.length + 1`: the number of
  slots never changes during any of the loops (freeing a slot keeps it,
  allocation only happens outside loops), and every acyclic chain of live
  nodes is shorter than the slot count.
-/

namespace OwnStl

/-- `NO_POS`: the `usize(-1)` sentinel from list.hpp. -/
def NO_POS : Nat := 2 ^ 64 - 1

/-- `details::Node<T>`: one value plus the `_back`/`_next` neighbour pointers. -/
structure Node (α : Type) where
  value : α
  back : Option Nat
  next : Option Nat
deriving DecidableEq, Repr

/-- The allocator: slot `p` holds the live node at address `p`, or `none`. -/
structure Heap (α : Type) where
  slots : List (Option (Node α))
deriving DecidableEq, Repr

variable {α : Type}

/-- Dereference address `p` (reading a dead or out-of-range slot gives `none`). -/
def Heap.get (h : Heap α) (p : Nat) : Option (Node α) :=
  (h.slots[p]?).getD none

/-- Overwrite the node stored at address `p`. -/
def Heap.set (h : Heap α) (p : Nat) (nd : Node α) : Heap α :=
  ⟨h.slots.set p (some nd)⟩

/-- `delete`: mark the slot at address `p` as dead. -/
def Heap.free (h : Heap α) (p : Nat) : Heap α :=
  ⟨h.slots.set p none⟩

/-- `new Node(...)`: append a fresh slot, returning its address. -/
def Heap.alloc (h : Heap α) (nd : Node α) : Heap α × Nat :=
  (⟨h.slots ++ [some nd]⟩, h.slots.length)

/-- `Node::setNext` called through a pointer: `p->setNext(q)`. -/
def nodeSetNext (h : Heap α) (p : Nat) (q : Option Nat) : Option (Heap α) := do
  let nd ← h.get p
  pure (h.set p ⟨nd.value, nd.back, q⟩)

/-- `Node::setBack` called through a pointer: `p->setBack(q)`. -/
def nodeSetBack (h : Heap α) (p : Nat) (q : Option Nat) : Option (Heap α) := do
  let nd ← h.get p
  pure (h.set p ⟨nd.value, q, nd.next⟩)

/-- `Node::reverse`: `std::swap(this->_next, this->_back)` at address `p`. -/
def nodeReverse (h : Heap α) (p : Nat) : Option (Heap α) := do
  let nd ← h.get p
  pure (h.set p ⟨nd.value, nd.next, nd.back⟩)

/-- The field swap performed by `Node::reverse`. -/
def Node.swapDir (nd : Node α) : Node α :=
  ⟨nd.value, nd.next, nd.back⟩

/-- `Node::unlink` at address `p` (list.hpp lines 300-310); every statement of
the C++ body re-reads the fields of `*p`, which the model mirrors. -/
def nodeUnlink (h : Heap α) (p : Nat) : Option (Heap α) := do
  let n1 ← h.get p
  let h ← match n1.back with
    | some b => nodeSetNext h b n1.next
    | none => pure h
  let n2 ← h.get p
  let h ← match n2.next with
    | some nx => nodeSetBack h nx n2.back
    | none => pure h
  let h ← nodeSetBack h p none
  nodeSetNext h p none

/-- `Node::linkNext` (list.hpp lines 204-218): splice `next` in right after
`self`. -/
def nodeLinkNext (h : Heap α) (self : Nat) (next : Option Nat) : Option (Heap α) :=
  match next with
  | none => some h
  | some o =>
    if o = self then some h
    else do
      let h ← nodeUnlink h o
      let sn ← h.get self
      let h ← match sn.next with
        | some x => do
            let h ← nodeSetNext h o (some x)
            nodeSetBack h x (some o)
        | none => pure h
      let h ← nodeSetBack h o (some self)
      nodeSetNext h self (some o)

/-- `Node::linkBack` (list.hpp lines 260-274): splice `back` in right before
`self`. -/
def nodeLinkBack (h : Heap α) (self : Nat) (back : Option Nat) : Option (Heap α) :=
  match back with
  | none => some h
  | some o =>
    if o = self then some h
    else do
      let h ← nodeUnlink h o
      let sn ← h.get self
      let h ← match sn.back with
        | some x => do
            let h ← nodeSetBack h o (some x)
            nodeSetNext h x (some o)
        | none => pure h
      let h ← nodeSetNext h o (some self)
      nodeSetBack h self (some o)

/-- `Node::operator+`: advance `k` hops via `_next`.  Each hop dereferences the
current pointer; the final pointer may be null without dereference, exactly as
in the C++ loop. -/
def nodeAdvance (h : Heap α) : Option Nat → Nat → Option (Option Nat)
  | p, 0 => some p
  | p, k + 1 => do
    let q ← p
    let nd ← h.get q
    nodeAdvance h nd.next k

/-- `Node::operator-`: retreat `k` hops via `_back`. -/
def nodeRetreat (h : Heap α) : Option Nat → Nat → Option (Option Nat)
  | p, 0 => some p
  | p, k + 1 => do
    let q ← p
    let nd ← h.get q
    nodeRetreat h nd.back k

/-- `List<T>`'s own fields: `_len`, `head`, `tail`. -/
structure ListS where
  len : Nat
  head : Option Nat
  tail : Option Nat
deriving DecidableEq, Repr

/-- The state of a default-constructed `List`. -/
def ListS.nil : ListS := ⟨0, none, none⟩

/-- `List::pushFront` (list.hpp lines 593-604). -/
def pushFront (h : Heap α) (s : ListS) (value : α) : Option (Heap α × ListS) := do
  let (h1, node) := h.alloc ⟨value, none, s.head⟩
  let step ← match s.head with
    | some hd => do
        let h2 ← nodeSetBack h1 hd (some node)
        pure (h2, s.tail)
    | none => pure (h1, some node)
  pure (step.1, ⟨s.len + 1, some node, step.2⟩)

/-- `List::pushBack` (list.hpp lines 639-650). -/
def pushBack (h : Heap α) (s : ListS) (value : α) : Option (Heap α × ListS) := do
  let (h1, node) := h.alloc ⟨value, s.tail, none⟩
  let step ← match s.tail with
    | some tl => do
        let h2 ← nodeSetNext h1 tl (some node)
        pure (h2, s.head)
    | none => pure (h1, some node)
  pure (step.1, ⟨s.len + 1, step.2, some node⟩)

/-- `List::popFront` (list.hpp lines 615-630); on an empty list the C++ code
dereferences a null head, modelled as `none`. -/
def popFront (h : Heap α) (s : ListS) : Option (α × Heap α × ListS) := do
  let p ← s.head
  let nd ← h.get p
  let value := nd.value
  let len1 := s.len - 1
  let newHead := nd.next
  let newTail := if newHead = none then none else s.tail
  let h ← nodeUnlink h p
  let h := h.free p
  pure (value, h, ⟨len1, newHead, newTail⟩)

/-- `List::popBack` (list.hpp lines 661-676). -/
def popBack (h : Heap α) (s : ListS) : Option (α × Heap α × ListS) := do
  let p ← s.tail
  let nd ← h.get p
  let value := nd.value
  let len1 := s.len - 1
  let newTail := nd.back
  let newHead := if newTail = none then none else s.head
  let h ← nodeUnlink h p
  let h := h.free p
  pure (value, h, ⟨len1, newHead, newTail⟩)

/-- `List::atNode` (list.hpp lines 1580-1594): endpoint shortcuts, then the
shorter of the two walks. -/
def atNode (h : Heap α) (s : ListS) (i : Nat) : Option (Option Nat) :=
  if i = 0 then some s.head
  else if i = s.len - 1 then some s.tail
  else if i ≤ s.len / 2 then do
    let hd ← s.head
    nodeAdvance h (some hd) i
  else do
    let tl ← s.tail
    nodeRetreat h (some tl) (s.len - i - 1)

/-- The error surface of `List::at` (`std::out_of_range`). -/
inductive ListError where
  | indexOutOfRange
deriving DecidableEq, Repr

/-- `List::at` (list.hpp lines 538-544): bounds-checked element access. -/
def atList (h : Heap α) (s : ListS) (i : Nat) : Option (Except ListError α) :=
  if s.len ≤ i then some (Except.error ListError.indexOutOfRange)
  else do
    let p ← atNode h s i
    let q ← p
    let nd ← h.get q
    pure (Except.ok nd.value)

/-- `List::insert` (list.hpp lines 1640-1662). -/
def insert (h : Heap α) (s : ListS) (value : α) (i : Nat) (backwarded : Bool) :
    Option (Heap α × ListS) :=
  if i = 0 ∧ backwarded then pushFront h s value
  else if s.len ≤ i then pushBack h s value
  else if i = s.len - 1 ∧ ¬backwarded then pushBack h s value
  else do
    let p ← atNode h s i
    let node ← p
    let (h, fresh) := Heap.alloc h ⟨value, none, none⟩
    let h ←
      if backwarded then nodeLinkBack h node (some fresh)
      else nodeLinkNext h node (some fresh)
    pure (h, ⟨s.len + 1, s.head, s.tail⟩)

/-- `List::insertForward` (list.hpp line 687). -/
def insertForward (h : Heap α) (s : ListS) (value : α) (i : Nat) :
    Option (Heap α × ListS) :=
  insert h s value i false

/-- `List::insertBackward` (list.hpp line 698). -/
def insertBackward (h : Heap α) (s : ListS) (value : α) (i : Nat) :
    Option (Heap α × ListS) :=
  insert h s value i true

/-- `List::remove` (list.hpp lines 823-842).  The first component of the
result is the value the function returns to its caller: in the two endpoint
branches the source discards the value popped by `popFront`/`popBack` and
executes a bare `return;` that carries no value (despite the declared return
type `T`), which is modelled as `none`; only the middle branch returns the
removed value. -/
def remove (h : Heap α) (s : ListS) (i : Nat) : Option (Option α × Heap α × ListS) :=
  if i = 0 then do
    let (_, h, s) ← popFront h s
    pure (none, h, s)
  else if s.len - 1 ≤ i then do
    let (_, h, s) ← popBack h s
    pure (none, h, s)
  else do
    let p ← atNode h s i
    let q ← p
    let nd ← h.get q
    let value := nd.value
    let len1 := s.len - 1
    let h ← nodeUnlink h q
    let h := h.free q
    pure (some value, h, ⟨len1, s.head, s.tail⟩)

/-- The loop of `List::retainIf` (list.hpp lines 895-921).  The filter is
applied to the value stored in the visited node.  When a node fails the
filter the source sets `head`/`tail` to `next` whenever the removed node was
the respective endpoint, unlinks, deletes, and moves on. -/
def retainIfLoop (filter : α → Bool) :
    Nat → Heap α → ListS → Option Nat → Option (Heap α × ListS)
  | _, h, s, none => some (h, s)
  | 0, _, _, some _ => none
  | fuel + 1, h, s, some p => do
    let nd ← h.get p
    if filter nd.value then
      retainIfLoop filter fuel h s nd.next
    else do
      let next := nd.next
      let s1 : ListS :=
        ⟨s.len - 1,
          if s.head = some p then next else s.head,
          if s.tail = some p then next else s.tail⟩
      let h ← nodeUnlink h p
      let h := h.free p
      retainIfLoop filter fuel h s1 next

/-- `List::retainIf` (list.hpp lines 895-921): returns the number removed. -/
def retainIf (filter : α → Bool) (h : Heap α) (s : ListS) :
    Option (Nat × Heap α × ListS) := do
  let oldLen := s.len
  let (h, s) ← retainIfLoop filter (h.slots.length + 1) h s s.head
  pure (oldLen - s.len, h, s)

/-- The loop of `List::removeIf` (list.hpp lines 966-985): nodes satisfying
the filter are unlinked and deleted; `head` and `tail` are never updated. -/
def removeIfLoop (filter : α → Bool) :
    Nat → Heap α → ListS → Option Nat → Option (Heap α × ListS)
  | _, h, s, none => some (h, s)
  | 0, _, _, some _ => none
  | fuel + 1, h, s, some p => do
    let nd ← h.get p
    if filter nd.value then do
      let next := nd.next
      let s1 : ListS := ⟨s.len - 1, s.head, s.tail⟩
      let h ← nodeUnlink h p
      let h := h.free p
      removeIfLoop filter fuel h s1 next
    else
      removeIfLoop filter fuel h s nd.next

/-- `List::removeIf` (list.hpp lines 966-985): returns the number removed. -/
def removeIf (filter : α → Bool) (h : Heap α) (s : ListS) :
    Option (Nat × Heap α × ListS) := do
  let oldLen := s.len
  let (h, s) ← removeIfLoop filter (h.slots.length + 1) h s s.head
  pure (oldLen - s.len, h, s)

/-- `List::append` (list.hpp lines 996-1015): splice `other`'s chain onto this
tail.  (The emptiness test is written `other.isEmpty()` in the source; the
only declared emptiness member is `empty()`, i.e. `_len == 0`.)  Returns the
heap, the new state of `this`, and the new state of `other`. -/
def append (h : Heap α) (s other : ListS) : Option (Heap α × ListS × ListS) :=
  if other.len = 0 then some (h, s, other)
  else if s.len = 0 then some (h, other, s)
  else do
    let len1 := s.len + other.len
    let tl ← s.tail
    let h ← nodeSetNext h tl other.head
    let oh ← other.head
    let h ← nodeSetBack h oh (some tl)
    pure (h, ⟨len1, s.head, other.tail⟩, ⟨0, none, none⟩)

/-- `List::sliceOff` (list.hpp lines 1029-1063).  Returns the heap, the state
of `this` afterwards, and the extracted list.  The source never updates
`this->_len`, `this->head` or `this->tail`; the extracted list's last-node
field is written as `extractedList._end`, which names no declared member of
`List` — the evident intent (the `tail` field) is modelled. -/
def sliceOff (h : Heap α) (s : ListS) (start finish : Nat) :
    Option (Heap α × ListS × ListS) :=
  let start := if s.len ≤ start then s.len else start
  let finish := if s.len < finish then s.len else finish
  if finish ≤ start then some (h, s, ListS.nil)
  else do
    let sp ← atNode h s start
    let startNode ← sp
    let ep ← atNode h s (finish - 1)
    let endNode ← ep
    let sn ← h.get startNode
    let backNode := sn.back
    let en ← h.get endNode
    let nextNode := en.next
    let h ← match backNode with
      | some b => nodeSetNext h b nextNode
      | none => pure h
    let h ← match nextNode with
      | some nx => nodeSetBack h nx backNode
      | none => pure h
    let h ← nodeSetBack h startNode none
    let h ← nodeSetNext h endNode none
    pure (h, s, ⟨finish - start, some startNode, some endNode⟩)

/-- The loop of `List::reverse` (list.hpp lines 1070-1081): swap each node's
pointer pair, then step through what is now `back` (the old `next`). -/
def reverseLoop : Nat → Heap α → Option Nat → Option (Heap α)
  | _, h, none => some h
  | 0, _, some _ => none
  | fuel + 1, h, some p => do
    let h ← nodeReverse h p
    let nd ← h.get p
    reverseLoop fuel h nd.back

/-- `List::reverse` (list.hpp lines 1070-1081).  (The emptiness test is
written `this->isEmpty()` in the source; the declared member is `empty()`.) -/
def reverse (h : Heap α) (s : ListS) : Option (Heap α × ListS) :=
  if s.len = 0 then some (h, s)
  else do
    let h ← reverseLoop (h.slots.length + 1) h s.head
    pure (h, ⟨s.len, s.tail, s.head⟩)

/-- The loop of `List::clear` (list.hpp lines 1089-1100). -/
def clearLoop : Nat → Heap α → Option Nat → Option (Heap α)
  | _, h, none => some h
  | 0, _, some _ => none
  | fuel + 1, h, some p => do
    let nd ← h.get p
    let h := h.free p
    clearLoop fuel h nd.next

/-- `List::clear` (list.hpp lines 1089-1100). -/
def clear (h : Heap α) (s : ListS) : Option (Heap α × ListS) := do
  let _ := s.len
  let h ← clearLoop (h.slots.length + 1) h s.head
  pure (h, ListS.nil)

/-- `List::swap` (list.hpp lines 1109-1117): exchange the three fields. -/
def swapLists (s other : ListS) : ListS × ListS := (other, s)

/-- The scan loop of `List::find` (list.hpp lines 746-752). -/
def findLoop [DecidableEq α] (value : α) :
    Nat → Heap α → Option Nat → Nat → Option Nat
  | _, _, none, _ => some NO_POS
  | 0, _, some _, _ => none
  | fuel + 1, h, some p, acc => do
    let nd ← h.get p
    if nd.value = value then some acc
    else findLoop value fuel h nd.next (acc + 1)

/-- `List::find` (list.hpp lines 739-755). -/
def find [DecidableEq α] (h : Heap α) (s : ListS) (value : α) (skip : Nat) :
    Option Nat :=
  if s.len ≤ skip then some NO_POS
  else do
    let hd ← s.head
    let p ← nodeAdvance h (some hd) skip
    findLoop value (h.slots.length + 1) h p skip

/-- `List::contains(const T&)` (list.hpp line 708): `find(value) != NO_POS`,
with the default `skip = 0`. -/
def containsVal [DecidableEq α] (h : Heap α) (s : ListS) (value : α) :
    Option Bool := do
  let r ← find h s value 0
  pure (decide (r ≠ NO_POS))

/-- The loop of `List::contains(const List<T>&)` (list.hpp lines 720-728). -/
def containsListLoop [DecidableEq α] (h : Heap α) (s : ListS) :
    Nat → Option Nat → Option Bool
  | _, none => some true
  | 0, some _ => none
  | fuel + 1, some p => do
    let nd ← h.get p
    let c ← containsVal h s nd.value
    if c then containsListLoop h s fuel nd.next else pure false

/-- `List::contains(const List<T>&)` (list.hpp lines 720-728): every element
of `other` must be contained in `s`. -/
def containsList [DecidableEq α] (h : Heap α) (s other : ListS) : Option Bool :=
  containsListLoop h s (h.slots.length + 1) other.head

/-- `Stack::append` (stack.hpp lines 108-111): `other.reverse()` followed by
`this->container.append(other.container)`.  A stack is its container
(`Stack` stores one `List` by value), so both stacks are their `ListS`. -/
def stackAppend (h : Heap α) (s other : ListS) : Option (Heap α × ListS × ListS) := do
  let (h, other) ← reverse h other
  append h s other

/-- The tail of the text produced by `operator<<` (list.hpp lines 1489-1491):
one `", " ++ value` group per node after the first. -/
def serializeLoop (toStr : α → String) (h : Heap α) :
    Nat → Option Nat → Option String
  | _, none => some ""
  | 0, some _ => none
  | fuel + 1, some p => do
    let nd ← h.get p
    let rest ← serializeLoop toStr h fuel nd.next
    pure (", " ++ toStr nd.value ++ rest)

/-- `operator<<` for `List` (list.hpp lines 1483-1496), with `toStr` playing
the role of the element type's stream output: `'['`, then `front`, then one
`", " ++ value` group per remaining node, then `']'`. -/
def ostreamList (toStr : α → String) (h : Heap α) (s : ListS) : Option String :=
  if 0 < s.len then do
    let hd ← s.head
    let fn ← h.get hd
    let rest ← serializeLoop toStr h (h.slots.length + 1) fn.next
    pure ("[" ++ toStr fn.value ++ rest ++ "]")
  else some ("[" ++ "]")

/-- A `std::istream` reduced to what `operator>>` uses: pending characters
plus the `failbit`/`eofbit` state flags. -/
structure IStream where
  chars : List Char
  failbit : Bool
  eofbit : Bool
deriving DecidableEq, Repr

/-- `in.fail()`. -/
def IStream.failQ (st : IStream) : Bool := st.failbit

/-- `in.good()`: neither failbit nor eofbit is set. -/
def IStream.goodQ (st : IStream) : Bool := !st.failbit && !st.eofbit

/-- `in.setstate(std::ios_base::failbit)`. -/
def IStream.setFail (st : IStream) : IStream := ⟨st.chars, true, st.eofbit⟩

/-- `in >> ch` for a `char`: a failed stream extracts nothing; otherwise skip
whitespace and take one character, or latch eofbit and failbit at the end of
input.  On failure the target keeps its previous value `old`. -/
def readChar (st : IStream) (old : Char) : IStream × Char :=
  if st.failbit || st.eofbit then (st.setFail, old)
  else
    match st.chars.dropWhile Char.isWhitespace with
    | [] => (⟨[], true, true⟩, old)
    | c :: rest => (⟨rest, st.failbit, st.eofbit⟩, c)

/-- Greedily consume a run of decimal digits. -/
def readNatDigits : List Char → Nat → Nat × List Char
  | c :: cs, acc =>
    if c.isDigit then readNatDigits cs (acc * 10 + (c.toNat - 48)) else (acc, c :: cs)
  | [], acc => (acc, [])

/-- `in >> value` for an unsigned integer: skip whitespace, read a digit run
(setting eofbit when the run ends the input), or set failbit (storing 0, as
`num_get` does since C++11) when no digit is found. -/
def readNat (st : IStream) (old : Nat) : IStream × Nat :=
  if st.failbit || st.eofbit then (st.setFail, old)
  else
    match st.chars.dropWhile Char.isWhitespace with
    | [] => (⟨[], true, true⟩, old)
    | c :: rest =>
      if c.isDigit then
        let r := readNatDigits (c :: rest) 0
        (⟨r.2, st.failbit, r.2.isEmpty⟩, r.1)
      else (⟨c :: rest, true, st.eofbit⟩, 0)

/-- The for-loop of `operator>>` (list.hpp line 1522): while the last
character read is `','` and the stream is good, extract a value, push it back
if the stream is still good, and read the next character. -/
def istreamListLoop (readV : IStream → α → IStream × α) (d : α) :
    Nat → IStream → Char → Heap α → ListS → Option (IStream × Char × Heap α × ListS)
  | 0, _, _, _, _ => none
  | fuel + 1, st, ch, h, s =>
    if ch = ',' && st.goodQ then
      let (st1, v) := readV st d
      let act : Option (Heap α × ListS) :=
        if st1.goodQ then pushBack h s v else some (h, s)
      match act with
      | none => none
      | some (h1, s1) =>
        let (st2, ch2) := readChar st1 ch
        istreamListLoop readV d fuel st2 ch2 h1 s1
    else some (st, ch, h, s)

/-- `operator>>` for `List` (list.hpp lines 1508-1539), with `readV` playing
the role of the element type's stream input and `d` the default-initialised
`T value`.  Mirrors the source exactly: a leading `'['` is required; the next
character, when not `']'`, is consumed before the comma-driven loop runs; and
the final character read is compared against `'['`. -/
def istreamList (readV : IStream → α → IStream × α) (d : α) (st : IStream)
    (h : Heap α) (s : ListS) : Option (IStream × Heap α × ListS) :=
  let ch0 : Char := Char.ofNat 0
  let r1 := readChar st ch0
  if r1.1.failQ || r1.2 ≠ '[' then some (r1.1.setFail, h, s)
  else
    let r2 := readChar r1.1 r1.2
    if r2.1.failQ || r2.2 = ']' then some (r2.1, h, s)
    else do
      let (st3, ch3, h3, s3) ←
        istreamListLoop readV d (r2.1.chars.length + 2) r2.1 r2.2 h s
      let r4 := readChar st3 ch3
      if r4.1.failQ || r4.2 ≠ '[' then pure (r4.1.setFail, h3, s3)
      else pure (r4.1, h3, s3)

/-!  ## Abstraction: chains, well-formedness and values  -/

/-- `chainSeg h p n stop = some ps`: starting at pointer `p`, following `next`
visits exactly the `n` live addresses `ps` and then reaches the pointer
`stop`. -/
def chainSeg (h : Heap α) : Option Nat → Nat → Option Nat → Option (List Nat)
  | p, 0, stop => if p = stop then some [] else none
  | some p, n + 1, stop => do
    let nd ← h.get p
    let ps ← chainSeg h nd.next n stop
    pure (p :: ps)
  | none, _ + 1, _ => none

/-- `backOk h prev ps`: along `ps`, every node's `back` pointer names its
predecessor (`prev` before the first). -/
def backOk (h : Heap α) : Option Nat → List Nat → Bool
  | _, [] => true
  | prev, p :: ps =>
    match h.get p with
    | some nd => nd.back == prev && backOk h (some p) ps
    | none => false

/-- The addresses of a list's nodes, from `head` to `tail`, provided walking
`next` from `head` visits exactly `len` live nodes and ends at null. -/
def chainOf (h : Heap α) (s : ListS) : Option (List Nat) :=
  chainSeg h s.head s.len none

/-- The head/tail/length invariant of §3 of the spec, as a decidable check:
walking `next` from `head` visits exactly `len` distinct live nodes and ends
at null, the `back` pointers mirror the `next` pointers, and `tail` is the
last visited node (absent when `len = 0`). -/
def wfB (h : Heap α) (s : ListS) : Bool :=
  match chainOf h s with
  | some ps => decide ps.Nodup && backOk h none ps && decide (s.tail = ps.getLast?)
  | none => false

/-- The values stored at a list of addresses. -/
def valsOf (h : Heap α) (ps : List Nat) : List α :=
  ps.filterMap fun p => (h.get p).map Node.value

/-- The element sequence a list represents (defined when its chain is). -/
def listVals (h : Heap α) (s : ListS) : Option (List α) :=
  (chainOf h s).map (valsOf h)

/-- Two lists in one heap own disjoint sets of nodes. -/
def disjB (h : Heap α) (s other : ListS) : Bool :=
  match chainOf h s, chainOf h other with
  | some ps, some qs => decide (∀ p ∈ ps, p ∉ qs)
  | _, _ => false

/-!  ## Heap lemmas  -/

theorem get_isLive {h : Heap α} {p : Nat} {nd : Node α} (hg : h.get p = some nd) :
    p < h.slots.length := by
  by_contra hlt
  rw [Heap.get, List.getElem?_eq_none (Nat.le_of_not_lt hlt)] at hg
  simp at hg

theorem get_set_ne (h : Heap α) (p q : Nat) (nd : Node α) (hne : q ≠ p) :
    (h.set p nd).get q = h.get q := by
  simp only [Heap.get, Heap.set, List.getElem?_set]
  simp [Ne.symm hne]

theorem get_set_self (h : Heap α) (p : Nat) (nd : Node α) (hp : p < h.slots.length) :
    (h.set p nd).get p = some nd := by
  simp [Heap.get, Heap.set, List.getElem?_set, hp]

theorem get_free_ne (h : Heap α) (p q : Nat) (hne : q ≠ p) :
    (h.free p).get q = h.get q := by
  simp only [Heap.get, Heap.free, List.getElem?_set]
  simp [Ne.symm hne]

theorem get_free_self (h : Heap α) (p : Nat) : (h.free p).get p = none := by
  simp only [Heap.get, Heap.free, List.getElem?_set]
  by_cases hp : p < h.slots.length <;> simp [hp]

theorem slots_set (h : Heap α) (p : Nat) (nd : Node α) :
    (h.set p nd).slots.length = h.slots.length := by
  simp [Heap.set]

theorem slots_free (h : Heap α) (p : Nat) :
    (h.free p).slots.length = h.slots.length := by
  simp [Heap.free]

/-!  ## Chain lemmas  -/

theorem chainSeg_zero {h : Heap α} {p stop : Option Nat} {ps : List Nat}
    (hc : chainSeg h p 0 stop = some ps) : p = stop ∧ ps = [] := by
  by_cases he : p = stop <;> simp [chainSeg, he] at hc
  · exact ⟨he, hc⟩

theorem chainSeg_succ {h : Heap α} {p stop : Option Nat} {n : Nat} {ps : List Nat}
    (hc : chainSeg h p (n + 1) stop = some ps) :
    ∃ q nd ps2, p = some q ∧ h.get q = some nd ∧ ps = q :: ps2 ∧
      chainSeg h nd.next n stop = some ps2 := by
  match p with
  | none => simp [chainSeg] at hc
  | some q =>
    simp only [chainSeg, Option.bind_eq_bind, Option.bind_eq_some] at hc
    obtain ⟨nd, hnd, hrest⟩ := hc
    obtain ⟨ps2, hps2, hcons⟩ := Option.map_eq_some'.mp (by simpa using hrest)
    exact ⟨q, nd, ps2, rfl, hnd, hcons.symm, hps2⟩

theorem chainSeg_length {h : Heap α} :
    ∀ {n : Nat} {p stop : Option Nat} {ps : List Nat},
      chainSeg h p n stop = some ps → ps.length = n := by
  intro n
  induction n with
  | zero => intro p stop ps hc; simp [(chainSeg_zero hc).2]
  | succ n ih =>
    intro p stop ps hc
    obtain ⟨q, nd, ps2, hp, hnd, hcons, hrest⟩ := chainSeg_succ hc
    subst hcons
    simp [ih hrest]

theorem chainSeg_congr {h1 h2 : Heap α} :
    ∀ {n : Nat} {p stop : Option Nat} {ps : List Nat},
      chainSeg h1 p n stop = some ps → (∀ q ∈ ps, h2.get q = h1.get q) →
      chainSeg h2 p n stop = some ps := by
  intro n
  induction n with
  | zero => intro p stop ps hc _; obtain ⟨hp, hps⟩ := chainSeg_zero hc; simp [chainSeg, hp, hps]
  | succ n ih =>
    intro p stop ps hc hsame
    obtain ⟨q, nd, ps2, hp, hnd, hcons, hrest⟩ := chainSeg_succ hc
    subst hp; subst hcons
    have hq : h2.get q = some nd := by rw [hsame q (by simp)]; exact hnd
    have := ih hrest fun r hr => hsame r (by simp [hr])
    simp [chainSeg, hq, this]

theorem backOk_congr {g k : Heap α} :
    ∀ {ps : List Nat} {prev : Option Nat},
      (∀ q ∈ ps, k.get q = g.get q) → backOk k prev ps = backOk g prev ps := by
  intro ps
  induction ps with
  | nil => intro prev _; simp [backOk]
  | cons q ps ih =>
    intro prev hsame
    have hq : k.get q = g.get q := hsame q (by simp)
    have hrest : backOk k (some q) ps = backOk g (some q) ps :=
      ih fun r hr => hsame r (by simp [hr])
    simp only [backOk, hq, hrest]

theorem valsOf_congr {g k : Heap α} :
    ∀ {ps : List Nat}, (∀ q ∈ ps, k.get q = g.get q) →
      valsOf k ps = valsOf g ps := by
  intro ps
  induction ps with
  | nil => intro _; simp [valsOf]
  | cons q ps ih =>
    intro hsame
    have hq : k.get q = g.get q := hsame q (by simp)
    have := ih fun r hr => hsame r (by simp [hr])
    simp only [valsOf, List.filterMap_cons] at this ⊢
    rw [hq, this]

theorem chainSeg_append {h : Heap α} :
    ∀ {a : Nat} {p mid stop : Option Nat} {ps1 ps2 : List Nat} {b : Nat},
      chainSeg h p a mid = some ps1 → chainSeg h mid b stop = some ps2 →
      chainSeg h p (a + b) stop = some (ps1 ++ ps2) := by
  intro a
  induction a with
  | zero =>
    intro p mid stop ps1 ps2 b h1 h2
    obtain ⟨hp, hps⟩ := chainSeg_zero h1
    subst hp; subst hps
    simpa using h2
  | succ a ih =>
    intro p mid stop ps1 ps2 b h1 h2
    obtain ⟨q, nd, ps3, hp, hnd, hcons, hrest⟩ := chainSeg_succ h1
    subst hp; subst hcons
    have := ih hrest h2
    have harith : a + 1 + b = (a + b) + 1 := by omega
    rw [harith]
    simp [chainSeg, hnd, this]

theorem chainSeg_live {h : Heap α} :
    ∀ {n : Nat} {p stop : Option Nat} {ps : List Nat},
      chainSeg h p n stop = some ps → ∀ q ∈ ps, ∃ nd, h.get q = some nd := by
  intro n
  induction n with
  | zero => intro p stop ps hc; simp [(chainSeg_zero hc).2]
  | succ n ih =>
    intro p stop ps hc q hq
    obtain ⟨r, nd, ps2, hp, hnd, hcons, hrest⟩ := chainSeg_succ hc
    subst hcons
    rcases List.mem_cons.mp hq with h | h
    · exact ⟨nd, h ▸ hnd⟩
    · exact ih hrest q h

theorem chain_length_le {h : Heap α} {n : Nat} {p stop : Option Nat} {ps : List Nat}
    (hc : chainSeg h p n stop = some ps) (hnd : ps.Nodup) :
    ps.length ≤ h.slots.length := by
  have hsub : ps.toFinset ⊆ Finset.range h.slots.length := by
    intro q hq
    obtain ⟨nd, hg⟩ := chainSeg_live hc q (List.mem_toFinset.mp hq)
    exact Finset.mem_range.mpr (get_isLive hg)
  calc ps.length = ps.toFinset.card := (List.toFinset_card_of_nodup hnd).symm
    _ ≤ (Finset.range h.slots.length).card := Finset.card_le_card hsub
    _ = h.slots.length := Finset.card_range _

/-!  ## Walk lemmas  -/

theorem nodeAdvance_split (h : Heap α) :
    ∀ (a : Nat) (p : Option Nat) (b : Nat),
      nodeAdvance h p (a + b) = (nodeAdvance h p a).bind fun p2 => nodeAdvance h p2 b := by
  intro a
  induction a with
  | zero => intro p b; simp [nodeAdvance]
  | succ a ih =>
    intro p b
    have harith : a + 1 + b = (a + b) + 1 := by omega
    rw [harith]
    match p with
    | none => simp [nodeAdvance]
    | some q =>
      simp only [nodeAdvance, Option.bind_eq_bind, Option.some_bind]
      match hg : h.get q with
      | none => simp
      | some nd => simp [ih nd.next b]

theorem nodeRetreat_split (h : Heap α) :
    ∀ (a : Nat) (p : Option Nat) (b : Nat),
      nodeRetreat h p (a + b) = (nodeRetreat h p a).bind fun p2 => nodeRetreat h p2 b := by
  intro a
  induction a with
  | zero => intro p b; simp [nodeRetreat]
  | succ a ih =>
    intro p b
    have harith : a + 1 + b = (a + b) + 1 := by omega
    rw [harith]
    match p with
    | none => simp [nodeRetreat]
    | some q =>
      simp only [nodeRetreat, Option.bind_eq_bind, Option.some_bind]
      match hg : h.get q with
      | none => simp
      | some nd => simp [ih nd.back b]

/-- Advancing `i ≤ n` hops along a chain of `n` nodes reaches the `i`-th node
(or the terminal pointer `stop` when `i = n`). -/
theorem nodeAdvance_chain {h : Heap α} :
    ∀ {i : Nat} {p stop : Option Nat} {n : Nat} {ps : List Nat},
      chainSeg h p n stop = some ps → i ≤ n →
      nodeAdvance h p i = some (match ps.drop i with
        | q :: _ => some q
        | [] => stop) := by
  intro i
  induction i with
  | zero =>
    intro p stop n ps hc _
    match n with
    | 0 => obtain ⟨hp, hps⟩ := chainSeg_zero hc; subst hp; subst hps; simp [nodeAdvance]
    | n + 1 =>
      obtain ⟨q, nd, ps2, hp, hnd, hcons, hrest⟩ := chainSeg_succ hc
      subst hp; subst hcons
      simp [nodeAdvance]
  | succ i ih =>
    intro p stop n ps hc hle
    match n with
    | 0 => omega
    | n + 1 =>
      obtain ⟨q, nd, ps2, hp, hnd, hcons, hrest⟩ := chainSeg_succ hc
      subst hp; subst hcons
      have := ih hrest (by omega)
      simp only [nodeAdvance, Option.bind_eq_bind, Option.some_bind, hnd, List.drop_succ_cons]
      exact this

/-- Retreating `length - 1 - i` hops from the last node of a chain with
correct `back` pointers reaches the `i`-th node. -/
theorem nodeRetreat_chain {h : Heap α} :
    ∀ {ps : List Nat} {v p stop : Option Nat},
      chainSeg h p ps.length stop = some ps → backOk h v ps = true →
      ∀ i, i < ps.length →
        nodeRetreat h ps.getLast? (ps.length - 1 - i) = some ps[i]? := by
  intro ps
  induction ps with
  | nil => intro v p stop _ _ i hi; simp at hi
  | cons q qs ih =>
    intro v p stop hc hb i hi
    obtain ⟨q2, nd, ps2, hp, hnd, hcons, hrest⟩ := chainSeg_succ hc
    subst hp
    injection hcons with hq hps
    subst hq
    subst hps
    simp only [backOk, hnd, Bool.and_eq_true, beq_iff_eq] at hb
    obtain ⟨hback, hbqs⟩ := hb
    cases qs with
    | nil =>
      have hi0 : i = 0 := by simpa using Nat.lt_one_iff.mp (by simpa using hi)
      subst hi0
      simp [nodeRetreat]
    | cons q2 qs2 =>
      obtain ⟨q3, nd2, ps3, hp2, hnd2, hcons2, hrest2⟩ := chainSeg_succ hrest
      injection hcons2 with hq3 hps3
      subst hq3
      have hback2 : nd2.back = some q := by
        simp only [backOk, hnd2, Bool.and_eq_true, beq_iff_eq] at hbqs
        exact hbqs.1
      cases i with
      | zero =>
        have hind := ih (v := some q) hrest hbqs 0 (by simp)
        have hlast : (q :: q2 :: qs2).getLast? = (q2 :: qs2).getLast? :=
          List.getLast?_cons_cons ..
        have harith : (q :: q2 :: qs2).length - 1 - 0 = ((q2 :: qs2).length - 1 - 0) + 1 := by
          simp only [List.length_cons]
          omega
        rw [hlast, harith, nodeRetreat_split]
        simp only [List.getElem?_cons_zero] at hind
        rw [hind]
        have hstep : nodeRetreat h (some q2) 1 = some (some q) := by
          simp [nodeRetreat, hnd2, hback2]
        simpa using hstep
      | succ i =>
        have hind := ih (v := some q) hrest hbqs i (by
          simp only [List.length_cons] at hi ⊢
          omega)
        have hlast : (q :: q2 :: qs2).getLast? = (q2 :: qs2).getLast? :=
          List.getLast?_cons_cons ..
        have harith : (q :: q2 :: qs2).length - 1 - (i + 1) = (q2 :: qs2).length - 1 - i := by
          simp only [List.length_cons]
          omega
        rw [hlast, harith, List.getElem?_cons_succ]
        exact hind

/-!  ## Well-formedness lemmas  -/

theorem wfB_elim {h : Heap α} {s : ListS} (hwf : wfB h s = true) :
    ∃ ps, chainOf h s = some ps ∧ ps.Nodup ∧ backOk h none ps = true ∧
      s.tail = ps.getLast? := by
  unfold wfB at hwf
  match hc : chainOf h s with
  | none => rw [hc] at hwf; simp at hwf
  | some ps =>
    rw [hc] at hwf
    simp only [Bool.and_eq_true, decide_eq_true_eq] at hwf
    exact ⟨ps, rfl, hwf.1.1, hwf.1.2, hwf.2⟩

theorem wfB_intro {h : Heap α} {s : ListS} {ps : List Nat}
    (hc : chainOf h s = some ps) (hnd : ps.Nodup) (hb : backOk h none ps = true)
    (ht : s.tail = ps.getLast?) : wfB h s = true := by
  unfold wfB
  rw [hc]
  simp [hnd, hb, ht]

theorem chain_head {h : Heap α} {p stop : Option Nat} {n : Nat} {ps : List Nat}
    (hc : chainSeg h p n stop = some ps) :
    p = (match ps with | q :: _ => some q | [] => stop) := by
  match n with
  | 0 =>
    obtain ⟨hp, hps⟩ := chainSeg_zero hc
    subst hps
    exact hp
  | n + 1 =>
    obtain ⟨q, nd, ps2, hp, _, hcons, _⟩ := chainSeg_succ hc
    subst hcons
    exact hp

theorem valsOf_length {h : Heap α} :
    ∀ {n : Nat} {p stop : Option Nat} {ps : List Nat},
      chainSeg h p n stop = some ps → (valsOf h ps).length = n := by
  intro n
  induction n with
  | zero => intro p stop ps hc; simp [(chainSeg_zero hc).2, valsOf]
  | succ n ih =>
    intro p stop ps hc
    obtain ⟨q, nd, ps2, hp, hnd, hcons, hrest⟩ := chainSeg_succ hc
    subst hcons
    simp only [valsOf, List.filterMap_cons, hnd, Option.map_some']
    simp only [List.length_cons]
    have := ih hrest
    simp only [valsOf] at this
    omega

theorem chain_vals {h : Heap α} :
    ∀ {n : Nat} {p stop : Option Nat} {ps : List Nat},
      chainSeg h p n stop = some ps →
      ∀ i, i < ps.length →
        ∃ q nd, ps[i]? = some q ∧ h.get q = some nd ∧
          (valsOf h ps)[i]? = some nd.value := by
  intro n
  induction n with
  | zero =>
    intro p stop ps hc i hi
    rw [(chainSeg_zero hc).2] at hi
    simp at hi
  | succ n ih =>
    intro p stop ps hc i hi
    obtain ⟨q, nd, ps2, hp, hnd, hcons, hrest⟩ := chainSeg_succ hc
    subst hcons
    match i with
    | 0 =>
      refine ⟨q, nd, by simp, hnd, ?_⟩
      simp [valsOf, List.filterMap_cons, hnd]
    | i + 1 =>
      obtain ⟨q2, nd2, hq2, hnd2, hv2⟩ := ih hrest i (by simpa using Nat.lt_of_succ_lt_succ hi)
      refine ⟨q2, nd2, by simpa using hq2, hnd2, ?_⟩
      simpa [valsOf, List.filterMap_cons, hnd] using hv2

/-- If a chain ends at the null pointer, its start is its first address. -/
theorem chain_head_none {h : Heap α} {p : Option Nat} {n : Nat} {ps : List Nat}
    (hc : chainSeg h p n none = some ps) : p = ps.head? := by
  have := chain_head hc
  cases ps <;> simpa using this

/-- `List::atNode` resolves index `i < len` to the `i`-th node of the chain of
a well-formed list, whichever of the four lookup paths it takes. -/
theorem atNode_spec {h : Heap α} {s : ListS} {ps : List Nat}
    (hwf : wfB h s = true) (hc : chainOf h s = some ps) {i : Nat} (hi : i < s.len) :
    atNode h s i = some ps[i]? := by
  obtain ⟨ps2, hc2, hnd, hb, ht⟩ := wfB_elim hwf
  rw [hc] at hc2
  have hps := Option.some.inj hc2
  subst hps
  have hcs : chainSeg h s.head s.len none = some ps := hc
  have hlen : ps.length = s.len := chainSeg_length hcs
  have hcl : chainSeg h s.head ps.length none = some ps := by rw [hlen]; exact hcs
  have hlt : i < ps.length := by omega
  obtain ⟨q0, nd0, hq0, hnd0, hv0⟩ := chain_vals hcs 0 (by omega)
  have hhead0 : s.head = some q0 := by
    rw [chain_head_none hcs, List.head?_eq_getElem?]
    exact hq0
  unfold atNode
  by_cases h0 : i = 0
  · subst h0
    rw [if_pos rfl, hhead0, hq0]
  · rw [if_neg h0]
    by_cases hlast : i = s.len - 1
    · rw [if_pos hlast, ht, List.getLast?_eq_getElem?, hlen, hlast]
    · rw [if_neg hlast]
      by_cases hhalf : i ≤ s.len / 2
      · rw [if_pos hhalf, hhead0]
        simp only [Option.bind_eq_bind, Option.some_bind]
        have hadv := nodeAdvance_chain (i := i) hcs (by omega)
        rw [hhead0] at hadv
        obtain ⟨q, l, hd⟩ : ∃ q l, ps.drop i = q :: l := by
          cases hdr : ps.drop i with
          | nil =>
            exfalso
            have := List.drop_eq_nil_iff.mp hdr
            omega
          | cons q l => exact ⟨q, l, rfl⟩
        rw [hd] at hadv
        have hgete : ps[i]? = some q := by
          rw [← List.head?_drop, hd]
          rfl
        rw [hadv, hgete]
      · rw [if_neg hhalf]
        obtain ⟨qt, ndt, hqt, hndt, hvt⟩ := chain_vals hcs (ps.length - 1) (by omega)
        have htl : s.tail = some qt := by
          rw [ht, List.getLast?_eq_getElem?]
          exact hqt
        have hgl : ps.getLast? = some qt := by rw [← ht, htl]
        rw [htl]
        simp only [Option.bind_eq_bind, Option.some_bind]
        have hretr := nodeRetreat_chain (v := none) hcl hb i hlt
        rw [hgl] at hretr
        have harith : s.len - i - 1 = ps.length - 1 - i := by omega
        rw [harith, hretr]

/-!  ## Concrete example states used by witnesses and counterexamples  -/

/-- Heap of the three-element list `[10, 20, 30]` in slots 0, 1, 2. -/
def hABC : Heap Nat :=
  ⟨[some ⟨10, none, some 1⟩, some ⟨20, some 0, some 2⟩, some ⟨30, some 1, none⟩]⟩

/-- The list `[10, 20, 30]` over `hABC`. -/
def sABC : ListS := ⟨3, some 0, some 2⟩

/-!  ## C6  -/

/-- C6: on a well-formed list, `List::at` fails with `IndexOutOfRange` exactly
when `index ≥ length`, and otherwise returns the element at position `index`
(resolved through `atNode`'s shorter-walk lookup). -/
theorem c6_at_index_bounds (h : Heap α) (s : ListS) (vs : List α)
    (hwf : wfB h s = true) (hvs : listVals h s = some vs) :
    vs.length = s.len ∧
    (∀ i, i < s.len → ∃ v, vs[i]? = some v ∧ atList h s i = some (Except.ok v)) ∧
    (∀ i, s.len ≤ i →
      atList h s i = some (Except.error ListError.indexOutOfRange)) := by
  obtain ⟨ps, hc, hvals⟩ : ∃ ps, chainOf h s = some ps ∧ vs = valsOf h ps := by
    unfold listVals at hvs
    match hcc : chainOf h s with
    | none => rw [hcc] at hvs; simp at hvs
    | some ps =>
      rw [hcc] at hvs
      simp only [Option.map_some', Option.some.injEq] at hvs
      exact ⟨ps, rfl, hvs.symm⟩
  have hcs : chainSeg h s.head s.len none = some ps := hc
  refine ⟨?_, ?_, ?_⟩
  · rw [hvals]
    exact valsOf_length hcs
  · intro i hi
    have hlt : i < ps.length := by rw [chainSeg_length hcs]; exact hi
    obtain ⟨q, nd, hq, hnd, hv⟩ := chain_vals hcs i hlt
    refine ⟨nd.value, by rw [hvals]; exact hv, ?_⟩
    unfold atList
    rw [if_neg (by omega)]
    rw [atNode_spec hwf hc hi, hq]
    simp [hnd]
  · intro i hi
    unfold atList
    rw [if_pos hi]

/-- C6 witness: the theorem applied to the concrete list `[10, 20, 30]`
(so in particular `at 5` on a length-3 list fails with `IndexOutOfRange`). -/
theorem c6_at_index_bounds_witness :
    ([10, 20, 30] : List Nat).length = sABC.len ∧
    (∀ i, i < sABC.len →
      ∃ v, ([10, 20, 30] : List Nat)[i]? = some v ∧
        atList hABC sABC i = some (Except.ok v)) ∧
    (∀ i, sABC.len ≤ i →
      atList hABC sABC i = some (Except.error ListError.indexOutOfRange)) :=
  c6_at_index_bounds hABC sABC [10, 20, 30] (by decide) (by decide)

/-- Heap of the two-element list `[1, 2]` in slots 0, 1. -/
def h12 : Heap Nat := ⟨[some ⟨1, none, some 1⟩, some ⟨2, some 0, none⟩]⟩

/-- The list `[1, 2]` over `h12`. -/
def s12 : ListS := ⟨2, some 0, some 1⟩

/-- Heap of the two-element list `[5, 7]` in slots 0, 1. -/
def h57 : Heap Nat := ⟨[some ⟨5, none, some 1⟩, some ⟨7, some 0, none⟩]⟩

/-- The list `[5, 7]` over `h57`. -/
def s57 : ListS := ⟨2, some 0, some 1⟩

/-- Heap of the singleton list `[1]` in slot 0. -/
def h1n : Heap Nat := ⟨[some ⟨1, none, none⟩]⟩

/-- The list `[1]` over `h1n`. -/
def s1n : ListS := ⟨1, some 0, some 0⟩

/-- Heap of the two-element list `[2, 1]` in slots 0, 1. -/
def h21 : Heap Nat := ⟨[some ⟨2, none, some 1⟩, some ⟨1, some 0, none⟩]⟩

/-- The list `[2, 1]` over `h21`. -/
def s21 : ListS := ⟨2, some 0, some 1⟩

/-- Heap of the list `[1, 2, 3, 4, 5]` in slots 0-4. -/
def h5 : Heap Nat :=
  ⟨[some ⟨1, none, some 1⟩, some ⟨2, some 0, some 2⟩, some ⟨3, some 1, some 3⟩,
    some ⟨4, some 2, some 4⟩, some ⟨5, some 3, none⟩]⟩

/-- The list `[1, 2, 3, 4, 5]` over `h5`. -/
def s5 : ListS := ⟨5, some 0, some 4⟩

/-- Heap of the two-element list `[10, 30]` (the `[A, C]` of the positional
insert scenario, with `A = 10`, `C = 30`) in slots 0, 1. -/
def hACl : Heap Nat := ⟨[some ⟨10, none, some 1⟩, some ⟨30, some 0, none⟩]⟩

/-- The list `[10, 30]` over `hACl`. -/
def sACl : ListS := ⟨2, some 0, some 1⟩

/-!  ## C1  -/

/-- C1: a mutating operation that violates the head/tail/length invariants.
On the list `[1, 2]` (built by two `pushBack`s from the empty list),
`retainIf (odd)` removes the tail node `2` but re-points `tail` to the
removed node's `next` (null), leaving `length = 1`, `head` present and
`tail` absent: the invariant "head and tail are absent exactly when length
is 0" fails, and walking from `head` no longer matches the state. -/
theorem c1_retainIf_breaks_invariants :
    (do
      let r1 ← pushBack (⟨[]⟩ : Heap Nat) ListS.nil 1
      let r2 ← pushBack r1.1 r1.2 2
      retainIf (fun v => v % 2 == 1) r2.1 r2.2) =
      some (1, ⟨[some ⟨1, none, none⟩, none]⟩, ⟨1, some 0, none⟩) ∧
    wfB (⟨[some ⟨1, none, none⟩, none]⟩ : Heap Nat) ⟨1, some 0, none⟩ = false ∧
    (⟨1, some 0, none⟩ : ListS).len ≠ 0 ∧
    (⟨1, some 0, none⟩ : ListS).tail = none := by
  refine ⟨by decide, by decide, by decide, by decide⟩

/-!  ## C2  -/

/-- C2: `List::remove` on the endpoint branches discards the popped element
and returns no value (the source executes a bare `return;`), while the claim
says the removed value is returned in every case.  On `[5, 7]`,
`remove 0` does remove the first element (leaving `[7]`) — like `popFront`,
whose value would be `5` — but produces no value; only the interior branch
(here `remove 1` on `[10, 20, 30]`) returns the removed value. -/
theorem c2_remove_endpoint_value_lost :
    ((remove h57 s57 0).map fun r => r.1) = some none ∧
    ((popFront h57 s57).map fun r => r.1) = some (5 : Nat) ∧
    ((remove h57 s57 0).map fun r => listVals r.2.1 r.2.2) = some (some [7]) ∧
    ((remove hABC sABC 1).map fun r => r.1) = some (some 20) := by
  refine ⟨by decide, by decide, by decide, by decide⟩

/-!  ## C3  -/

/-- C3: serialization does produce `[v1, v2, ..., vn]` (`[]` when empty), but
deserializing the serializer's own output fails: on input `"[1]"` the parser
consumes the `1` as its post-`[` lookahead character, never enters the
comma-driven loop, reads `]` and then rejects it (the source compares the
closing character against `'['`), setting failbit and leaving the target list
empty — so `deserialize(serialize([1]))` is the empty list, not `[1]`. -/
theorem c3_roundtrip_fails :
    ostreamList Nat.repr h1n s1n = some "[1]" ∧
    ostreamList Nat.repr hABC sABC = some "[10, 20, 30]" ∧
    ostreamList Nat.repr (⟨[]⟩ : Heap Nat) ListS.nil = some "[]" ∧
    istreamList readNat 0 ⟨"[1]".data, false, false⟩ (⟨[]⟩ : Heap Nat) ListS.nil =
      some (⟨[], true, false⟩, ⟨[]⟩, ListS.nil) ∧
    listVals (⟨[]⟩ : Heap Nat) ListS.nil ≠ some [1] ∧
    listVals h1n s1n = some [1] := by
  refine ⟨by decide, by decide, by decide, by decide, by decide, by decide⟩

/-!  ## C4  -/

/-- C4: `List::removeIf` never re-points `head`/`tail`.  On `[2, 1]`,
`removeIf (even)` unlinks and destroys the head node `2` but leaves `head`
aimed at the destroyed slot: the resulting list is not `[1]` (its chain is
undefined), refuting the claim — although the claim's own example
`removeIf (even)` on `[1, 2, 3, 4, 5]`, which removes no endpoint, does
leave `[1, 3, 5]` and return 2. -/
theorem c4_removeIf_dangling_head :
    removeIf (fun v => v % 2 == 0) h21 s21 =
      some (1, ⟨[none, some ⟨1, none, none⟩]⟩, ⟨1, some 0, some 1⟩) ∧
    Heap.get (⟨[none, some ⟨1, none, none⟩]⟩ : Heap Nat) 0 = none ∧
    wfB (⟨[none, some ⟨1, none, none⟩]⟩ : Heap Nat) ⟨1, some 0, some 1⟩ = false ∧
    listVals (⟨[none, some ⟨1, none, none⟩]⟩ : Heap Nat) ⟨1, some 0, some 1⟩ = none ∧
    ((removeIf (fun v => v % 2 == 0) h5 s5).map fun r =>
      (r.1, listVals r.2.1 r.2.2)) = some (2, some [1, 3, 5]) := by
  refine ⟨by decide, by decide, by decide, by decide, by decide⟩

/-!  ## C5  -/

/-- C5: `List::sliceOff` never updates the source list's `head`/`tail`/`len`.
On `[1, 2]`, `sliceOff 0 1` hands back `[1]` as the extracted list, but the
source list keeps `len = 2` and `head` still aimed at the extracted node 0
(shared with the result), so the extracted elements are not detached and the
source's chain is broken. -/
theorem c5_sliceOff_source_not_updated :
    sliceOff h12 s12 0 1 =
      some (⟨[some ⟨1, none, none⟩, some ⟨2, none, none⟩]⟩, s12, ⟨1, some 0, some 0⟩) ∧
    s12.len = 2 ∧ s12.head = some 0 ∧
    (⟨1, some 0, some 0⟩ : ListS).head = some 0 ∧
    wfB (⟨[some ⟨1, none, none⟩, some ⟨2, none, none⟩]⟩ : Heap Nat) s12 = false ∧
    listVals (⟨[some ⟨1, none, none⟩, some ⟨2, none, none⟩]⟩ : Heap Nat) s12 = none := by
  refine ⟨by decide, by decide, by decide, by decide, by decide, by decide⟩

/-!  ## C7  -/

/-- C7: the slice-then-append round trip does not restore the original list.
With `L1 = [1]`, `a = 0`, `b = 1`: `sliceOff` leaves `L1` still claiming its
node, and the following `append` splices that node after itself, producing a
state of length 2 whose chain is a self-loop — not equal to the original
`[1]` (only the donor-becomes-empty half of the claim survives). -/
theorem c7_slice_append_not_identity :
    (do
      let r1 ← sliceOff h1n s1n 0 1
      let r2 ← append r1.1 r1.2.1 r1.2.2
      pure (r2.2.1, listVals r2.1 r2.2.1, r2.2.2)) =
      some (⟨2, some 0, some 0⟩, none, ListS.nil) ∧
    listVals h1n s1n = some [1] ∧
    (⟨2, some 0, some 0⟩ : ListS).len ≠ s1n.len := by
  refine ⟨by decide, by decide, by decide⟩

/-!  ## C8  -/

/-- C8 counterexample: on `[A, C] = [10, 30]`, `insertForward(B, 1)` with
`B = 20` does not produce `[A, B, C] = [10, 20, 30]`: the forward edge policy
routes index `length - 1` to `pushBack`, giving `[10, 30, 20]`. -/
theorem c8_insertForward_counterexample :
    ((insertForward hACl sACl 20 1).map fun r => listVals r.1 r.2) =
      some (some [10, 30, 20]) ∧
    some (some [10, 30, 20]) ≠ some (some ([10, 20, 30] : List Nat)) := by
  refine ⟨by decide, by decide⟩

/-- C8 amended: on the two-element list `[A, C] = [10, 30]`,
`insertForward(B, 1)` produces `[A, C, B] = [10, 30, 20]` (forward insertion
places `B` as the successor of the element at index 1, routed to `pushBack`
by the `index == length - 1` edge policy), while `insertBackward(B, 1)`
produces `[A, B, C] = [10, 20, 30]`, placing `B` between `A` and `C`. -/
theorem c8_insert_at_one :
    ((insertForward hACl sACl 20 1).map fun r => listVals r.1 r.2) =
      some (some [10, 30, 20]) ∧
    ((insertBackward hACl sACl 20 1).map fun r => listVals r.1 r.2) =
      some (some [10, 20, 30]) := by
  refine ⟨by decide, by decide⟩

/-!  ## C10  -/

theorem findLoop_spec [DecidableEq α] {h : Heap α} {w : α} :
    ∀ {ps : List Nat} {p : Option Nat} {c f : Nat},
      chainSeg h p ps.length none = some ps →
      ps.length + 1 ≤ f → c + ps.length ≤ NO_POS →
      ∃ r, findLoop w f h p c = some r ∧
        (r ≠ NO_POS ↔ w ∈ valsOf h ps) := by
  intro ps
  induction ps with
  | nil =>
    intro p c f hc _ _
    obtain ⟨hp, _⟩ := chainSeg_zero hc
    subst hp
    refine ⟨NO_POS, ?_, by simp [valsOf]⟩
    match f with
    | 0 => rfl
    | f + 1 => rfl
  | cons q qs ih =>
    intro p c f hc hfuel hacc
    obtain ⟨q2, nd, ps2, hp, hnd, hcons, hrest⟩ := chainSeg_succ hc
    subst hp
    injection hcons with hq hps
    subst hq
    subst hps
    have hvals : valsOf h (q :: qs) = nd.value :: valsOf h qs := by
      simp [valsOf, List.filterMap_cons, hnd]
    match f, hfuel with
    | f + 1, hfuel =>
      by_cases hv : nd.value = w
      · refine ⟨c, ?_, ?_⟩
        · simp [findLoop, hnd, hv]
        · rw [hvals]
          have : c < NO_POS := by
            simp only [List.length_cons] at hacc
            omega
          simp [hv, Nat.ne_of_lt this]
      · obtain ⟨r, hr, hiff⟩ := ih (p := nd.next) (c := c + 1) (f := f)
          hrest (by simp only [List.length_cons] at hfuel; omega)
          (by simp only [List.length_cons] at hacc; omega)
        refine ⟨r, ?_, ?_⟩
        · simp [findLoop, hnd, hv, hr]
        · rw [hvals, hiff]
          simp [List.mem_cons]
          intro hvv
          exact absurd hvv.symm hv
      
theorem find_spec [DecidableEq α] {h : Heap α} {s : ListS} {vs : List α}
    (hwf : wfB h s = true) (hvs : listVals h s = some vs) (hlen : s.len ≤ NO_POS)
    (value : α) :
    ∃ r, find h s value 0 = some r ∧ (r ≠ NO_POS ↔ value ∈ vs) := by
  obtain ⟨ps, hc, hnd, hb, ht⟩ := wfB_elim hwf
  have hvals : vs = valsOf h ps := by
    unfold listVals at hvs
    rw [hc] at hvs
    simpa using hvs.symm
  have hcs : chainSeg h s.head s.len none = some ps := hc
  have hlenps : ps.length = s.len := chainSeg_length hcs
  by_cases h0 : s.len = 0
  · have hps : ps = [] := List.length_eq_zero.mp (by omega)
    refine ⟨NO_POS, ?_, ?_⟩
    · unfold find
      rw [if_pos (by omega)]
    · subst hps
      simp [hvals, valsOf]
  · have hcl : chainSeg h s.head ps.length none = some ps := by rw [hlenps]; exact hcs
    obtain ⟨q0, nd0, hq0, hnd0, _⟩ := chain_vals hcs 0 (by omega)
    have hhead0 : s.head = some q0 := by
      rw [chain_head_none hcs, List.head?_eq_getElem?]
      exact hq0
    obtain ⟨r, hr, hiff⟩ := findLoop_spec (w := value)
      (p := s.head) (c := 0) (f := h.slots.length + 1) hcl
      (by have := chain_length_le hcs hnd; omega) (by omega)
    refine ⟨r, ?_, by rw [hvals]; exact hiff⟩
    unfold find
    rw [if_neg (by omega), hhead0]
    simp only [Option.bind_eq_bind, Option.some_bind]
    have hadv : nodeAdvance h (some q0) 0 = some (some q0) := rfl
    rw [hadv]
    simp only [Option.some_bind]
    rw [← hhead0, hr]

theorem containsVal_spec [DecidableEq α] {h : Heap α} {s : ListS} {vs : List α}
    (hwf : wfB h s = true) (hvs : listVals h s = some vs) (hlen : s.len ≤ NO_POS)
    (value : α) :
    containsVal h s value = some (decide (value ∈ vs)) := by
  obtain ⟨r, hr, hiff⟩ := find_spec hwf hvs hlen value
  unfold containsVal
  rw [hr]
  simp only [Option.bind_eq_bind, Option.some_bind, Option.pure_def, Option.some.injEq]
  exact decide_eq_decide.mpr hiff

theorem containsListLoop_spec [DecidableEq α] {h : Heap α} {sA : ListS} {vsA : List α}
    (hA : ∀ v, containsVal h sA v = some (decide (v ∈ vsA))) :
    ∀ {qs : List Nat} {p : Option Nat} {f : Nat},
      chainSeg h p qs.length none = some qs → qs.length + 1 ≤ f →
      containsListLoop h sA f p = some (decide (∀ v ∈ valsOf h qs, v ∈ vsA)) := by
  intro qs
  induction qs with
  | nil =>
    intro p f hc _
    obtain ⟨hp, _⟩ := chainSeg_zero hc
    subst hp
    match f with
    | 0 => simp [containsListLoop, valsOf]
    | f + 1 => simp [containsListLoop, valsOf]
  | cons q qs ih =>
    intro p f hc hfuel
    obtain ⟨q2, nd, ps2, hp, hnd, hcons, hrest⟩ := chainSeg_succ hc
    subst hp
    injection hcons with hq hps
    subst hq
    subst hps
    have hvals : valsOf h (q :: qs) = nd.value :: valsOf h qs := by
      simp [valsOf, List.filterMap_cons, hnd]
    match f, hfuel with
    | f + 1, hfuel =>
      rw [hvals]
      by_cases hmem : nd.value ∈ vsA
      · have hrec := ih (p := nd.next) (f := f) hrest
          (by simp only [List.length_cons] at hfuel; omega)
        simp [containsListLoop, hnd, hA nd.value, hmem, hrec, List.forall_mem_cons]
      · simp [containsListLoop, hnd, hA nd.value, hmem, List.forall_mem_cons]

/-- C10: on well-formed lists `A` (with element sequence `vsA`) and `B` (with
element sequence `vsB`) in one heap, `List::contains(const List&)` computes
exactly the predicate "every value occurring in B also occurs in A" — order
and multiplicity ignored, and in particular `true` whenever `B` is empty
(`vsB = []` makes the quantifier vacuous). -/
theorem c10_containsList [DecidableEq α] (h : Heap α) (sA sB : ListS)
    (vsA vsB : List α) (hwfA : wfB h sA = true) (hwfB : wfB h sB = true)
    (hvA : listVals h sA = some vsA) (hvB : listVals h sB = some vsB)
    (hlen : sA.len ≤ NO_POS) :
    containsList h sA sB = some (decide (∀ v ∈ vsB, v ∈ vsA)) := by
  obtain ⟨qs, hcB, hndB, _, _⟩ := wfB_elim hwfB
  have hvalsB : vsB = valsOf h qs := by
    unfold listVals at hvB
    rw [hcB] at hvB
    simpa using hvB.symm
  have hcsB : chainSeg h sB.head sB.len none = some qs := hcB
  have hlenqs : qs.length = sB.len := chainSeg_length hcsB
  have hclB : chainSeg h sB.head qs.length none = some qs := by rw [hlenqs]; exact hcsB
  have hA : ∀ v, containsVal h sA v = some (decide (v ∈ vsA)) := fun v =>
    containsVal_spec hwfA hvA hlen v
  unfold containsList
  rw [containsListLoop_spec hA hclB (by have := chain_length_le hcsB hndB; omega)]
  rw [hvalsB]

/-- Heap holding the list `[10, 20]` (slots 0, 1) and the list `[20, 10]`
(slots 2, 3) side by side. -/
def hC10 : Heap Nat :=
  ⟨[some ⟨10, none, some 1⟩, some ⟨20, some 0, none⟩,
    some ⟨20, none, some 3⟩, some ⟨10, some 2, none⟩]⟩

/-- The list `[10, 20]` over `hC10`. -/
def sC10a : ListS := ⟨2, some 0, some 1⟩

/-- The list `[20, 10]` over `hC10`. -/
def sC10b : ListS := ⟨2, some 2, some 3⟩

/-- C10 witness: `[10, 20].contains([20, 10])` evaluates to `true` on the
concrete heap. -/
theorem c10_containsList_witness :
    containsList hC10 sC10a sC10b =
      some (decide (∀ v ∈ ([20, 10] : List Nat), v ∈ ([10, 20] : List Nat))) :=
  c10_containsList hC10 sC10a sC10b [10, 20] [20, 10]
    (by decide) (by decide) (by decide) (by decide) (by decide)

/-!  ## C9: reversal and splicing machinery  -/

theorem mem_of_getLast? {l : List Nat} {a : Nat} (h : l.getLast? = some a) :
    a ∈ l := by
  obtain ⟨hne, he⟩ := List.mem_getLast?_eq_getLast (Option.mem_def.mpr h)
  rw [he]
  exact List.getLast_mem hne

theorem getLast?_append_right {l1 l2 : List Nat} (h : l2 ≠ []) :
    (l1 ++ l2).getLast? = l2.getLast? := by
  rw [List.getLast?_append]
  cases hl : l2.getLast? with
  | none => exact absurd (List.getLast?_eq_none_iff.mp hl) h
  | some a => rfl

/-- The last address of `xs`, or `prev` when `xs` is empty. -/
def lastD (prev : Option Nat) (xs : List Nat) : Option Nat :=
  match xs.getLast? with
  | some t => some t
  | none => prev

theorem lastD_cons (prev : Option Nat) (x : Nat) (xs : List Nat) :
    lastD prev (x :: xs) = lastD (some x) xs := by
  cases xs with
  | nil => rfl
  | cons y ys =>
    unfold lastD
    rw [List.getLast?_cons_cons]
    cases hl : (y :: ys).getLast? with
    | none => exact absurd (List.getLast?_eq_none_iff.mp hl) (List.cons_ne_nil y ys)
    | some a => simp [hl]

theorem backOk_append (h : Heap α) :
    ∀ (xs : List Nat) (prev : Option Nat) (ys : List Nat),
      backOk h prev (xs ++ ys) = (backOk h prev xs && backOk h (lastD prev xs) ys) := by
  intro xs
  induction xs with
  | nil => intro prev ys; simp [backOk, lastD]
  | cons x xs ih =>
    intro prev ys
    rw [List.cons_append]
    simp only [backOk]
    cases hx : h.get x with
    | none => rfl
    | some nd =>
      rw [ih (some x) ys, lastD_cons]
      simp [Bool.and_assoc]

/-- `chainSeg` only reads the `next` fields (and liveness) of its nodes. -/
theorem chainSeg_congr_next {h1 h2 : Heap α} :
    ∀ {n : Nat} {p stop : Option Nat} {ps : List Nat},
      chainSeg h1 p n stop = some ps →
      (∀ q ∈ ps, (h2.get q).map Node.next = (h1.get q).map Node.next) →
      chainSeg h2 p n stop = some ps := by
  intro n
  induction n with
  | zero =>
    intro p stop ps hc _
    obtain ⟨hp, hps⟩ := chainSeg_zero hc
    simp [chainSeg, hp, hps]
  | succ n ih =>
    intro p stop ps hc hsame
    obtain ⟨q, nd, ps2, hp, hnd, hcons, hrest⟩ := chainSeg_succ hc
    subst hp; subst hcons
    have hq := hsame q (by simp)
    rw [hnd] at hq
    match hq2 : h2.get q with
    | none => rw [hq2] at hq; simp at hq
    | some nd2 =>
      rw [hq2] at hq
      simp only [Option.map_some', Option.some.injEq] at hq
      have hrest2 : chainSeg h2 nd2.next n stop = some ps2 := by
        rw [hq]
        exact ih hrest fun r hr => hsame r (by simp [hr])
      simp [chainSeg, hq2, hrest2]

/-- `backOk` only reads the `back` fields (and liveness) of its nodes. -/
theorem backOk_congr_back {g k : Heap α} :
    ∀ {ps : List Nat} {prev : Option Nat},
      (∀ q ∈ ps, (k.get q).map Node.back = (g.get q).map Node.back) →
      backOk k prev ps = backOk g prev ps := by
  intro ps
  induction ps with
  | nil => intro prev _; simp [backOk]
  | cons q ps ih =>
    intro prev hsame
    have hq := hsame q (by simp)
    have hrest : backOk k (some q) ps = backOk g (some q) ps :=
      ih fun r hr => hsame r (by simp [hr])
    simp only [backOk]
    match h1q : g.get q with
    | none =>
      rw [h1q] at hq
      simp only [Option.map_none'] at hq
      match h2q : k.get q with
      | none => rfl
      | some nd2 => rw [h2q] at hq; simp at hq
    | some nd1 =>
      rw [h1q] at hq
      match h2q : k.get q with
      | none => rw [h2q] at hq; simp at hq
      | some nd2 =>
        rw [h2q] at hq
        simp only [Option.map_some', Option.some.injEq] at hq
        simp [hq, hrest]

/-- `valsOf` only reads the `value` fields (and liveness) of its nodes. -/
theorem valsOf_congr_value {h1 h2 : Heap α} :
    ∀ {ps : List Nat},
      (∀ q ∈ ps, (h2.get q).map Node.value = (h1.get q).map Node.value) →
      valsOf h2 ps = valsOf h1 ps := by
  intro ps
  induction ps with
  | nil => intro _; simp [valsOf]
  | cons q ps ih =>
    intro hsame
    have hq := hsame q (by simp)
    have hrest : valsOf h2 ps = valsOf h1 ps := ih fun r hr => hsame r (by simp [hr])
    simp only [valsOf, List.filterMap_cons] at hrest ⊢
    rw [hq, hrest]

/-- Re-pointing the last node's `next` field turns a null-terminated chain
into one that ends at the new pointer, visiting the same addresses. -/
theorem chainSeg_setNext_last {h : Heap α} :
    ∀ {ps : List Nat} {p : Option Nat} {t : Nat} {q : Option Nat} {nd : Node α},
      chainSeg h p ps.length none = some ps → ps.Nodup →
      ps.getLast? = some t → h.get t = some nd →
      chainSeg (h.set t ⟨nd.value, nd.back, q⟩) p ps.length q = some ps := by
  intro ps
  induction ps with
  | nil => intro p t q nd _ _ hlast _; simp at hlast
  | cons x xs ih =>
    intro p t q nd hc hnd hlast hget
    obtain ⟨x2, ndx, ps2, hp, hndx, hcons, hrest⟩ := chainSeg_succ hc
    subst hp
    injection hcons with hx hps
    subst hx
    subst hps
    cases xs with
    | nil =>
      have hxt : x = t := by simpa [List.getLast?] using hlast
      subst hxt
      have hnd2 : ndx = nd := by rw [hndx] at hget; exact Option.some.inj hget
      subst hnd2
      have hlive : x < h.slots.length := get_isLive hndx
      have hgs := get_set_self h x ⟨ndx.value, ndx.back, q⟩ hlive
      simp [chainSeg, hgs]
    | cons y ys =>
      have hlast2 : (y :: ys).getLast? = some t := by
        rwa [List.getLast?_cons_cons] at hlast
      have htmem : t ∈ y :: ys := mem_of_getLast? hlast2
      have hxt : x ≠ t := by
        intro he
        subst he
        exact (List.nodup_cons.mp hnd).1 htmem
      have hrec := ih (p := ndx.next) (q := q) hrest (List.nodup_cons.mp hnd).2
        hlast2 hget
      have hgx : (h.set t ⟨nd.value, nd.back, q⟩).get x = some ndx := by
        rw [get_set_ne h t x _ hxt]
        exact hndx
      simp only [List.length_cons] at hrec
      simp [chainSeg, hgx, hrec]

/-- A well-formed list of length 0 is exactly the default-constructed state. -/
theorem wf_len_zero {h : Heap α} {s : ListS} (hwf : wfB h s = true)
    (h0 : s.len = 0) : s = ⟨0, none, none⟩ := by
  obtain ⟨ps, hc, _, _, ht⟩ := wfB_elim hwf
  have hcs : chainSeg h s.head s.len none = some ps := hc
  rw [h0] at hcs
  obtain ⟨hh, hps⟩ := chainSeg_zero hcs
  subst hps
  simp only [List.getLast?_nil] at ht
  cases s
  simp_all

theorem reverseLoop_spec :
    ∀ {ps : List Nat} {h : Heap α} {p : Option Nat} {f : Nat},
      chainSeg h p ps.length none = some ps → ps.Nodup → ps.length ≤ f →
      ∃ h2, reverseLoop f h p = some h2 ∧
        ∀ q, h2.get q = if q ∈ ps then (h.get q).map Node.swapDir else h.get q := by
  intro ps
  induction ps with
  | nil =>
    intro h p f hc _ _
    obtain ⟨hp, _⟩ := chainSeg_zero hc
    subst hp
    refine ⟨h, ?_, by simp⟩
    match f with
    | 0 => rfl
    | f + 1 => rfl
  | cons x xs ih =>
    intro h p f hc hnd hfuel
    obtain ⟨x2, nd, ps2, hp, hnd2, hcons, hrest⟩ := chainSeg_succ hc
    subst hp
    injection hcons with hx hps
    subst hx
    subst hps
    have hxnotin : x ∉ xs := (List.nodup_cons.mp hnd).1
    have hlive : x < h.slots.length := get_isLive hnd2
    match f, hfuel with
    | f + 1, hfuel =>
      have h1def : nodeReverse h x = some (h.set x ⟨nd.value, nd.next, nd.back⟩) := by
        simp [nodeReverse, hnd2]
      set h1 := h.set x ⟨nd.value, nd.next, nd.back⟩ with hh1
      have hg1x : h1.get x = some ⟨nd.value, nd.next, nd.back⟩ :=
        get_set_self h x _ hlive
      have hg1 : ∀ r, r ≠ x → h1.get r = h.get r := fun r hr => get_set_ne h x r _ hr
      have hrest1 : chainSeg h1 nd.next xs.length none = some xs :=
        chainSeg_congr hrest fun r hr => hg1 r (fun he => hxnotin (he ▸ hr))
      obtain ⟨h2, hloop, hchar⟩ := ih (h := h1) (p := nd.next) (f := f) hrest1
        (List.nodup_cons.mp hnd).2 (by simp only [List.length_cons] at hfuel; omega)
      refine ⟨h2, ?_, ?_⟩
      · show reverseLoop (f + 1) h (some x) = some h2
        simp only [reverseLoop, Option.bind_eq_bind]
        rw [h1def]
        simp only [Option.some_bind]
        rw [hg1x]
        simp only [Option.some_bind]
        exact hloop
      · intro q
        by_cases hq : q ∈ x :: xs
        · rcases List.mem_cons.mp hq with he | hm
          · subst he
            rw [if_pos hq, hchar q, if_neg hxnotin, hg1x, hnd2]
            rfl
          · have hqx : q ≠ x := fun he => hxnotin (he ▸ hm)
            rw [if_pos hq, hchar q, if_pos hm, hg1 q hqx]
        · have hqx : q ≠ x := fun he => hq (he ▸ List.mem_cons_self x xs)
          have hqm : q ∉ xs := fun hm => hq (List.mem_cons_of_mem x hm)
          rw [if_neg hq, hchar q, if_neg hqm, hg1 q hqx]

/-- Swapping every node of a null-terminated chain with correct `back`
pointers produces, from its last node, a chain through the old `back`
pointers that visits the addresses in reverse and ends at `prev`. -/
theorem rev_chain {h h2 : Heap α} :
    ∀ {ps : List Nat} {v p stop : Option Nat},
      chainSeg h p ps.length stop = some ps → backOk h v ps = true →
      (∀ q ∈ ps, h2.get q = (h.get q).map Node.swapDir) →
      chainSeg h2 (lastD v ps) ps.length v = some ps.reverse := by
  intro ps
  induction ps with
  | nil => intro v p stop _ _ _; simp [chainSeg, lastD]
  | cons x xs ih =>
    intro v p stop hc hb hswap
    obtain ⟨x2, nd, ps2, hp, hnd, hcons, hrest⟩ := chainSeg_succ hc
    subst hp
    injection hcons with hx hps
    subst hx
    subst hps
    simp only [backOk, hnd, Bool.and_eq_true, beq_iff_eq] at hb
    obtain ⟨hback, hbxs⟩ := hb
    have hih := ih (v := some x) hrest hbxs fun r hr => hswap r (by simp [hr])
    have hstep : chainSeg h2 (some x) 1 v = some [x] := by
      have hgx : h2.get x = some ⟨nd.value, nd.next, nd.back⟩ := by
        rw [hswap x (by simp), hnd]
        rfl
      simp [chainSeg, hgx, hback]
    have hcomp := chainSeg_append hih hstep
    rw [lastD_cons]
    simpa using hcomp

/-- After the pointer swap, the `back` pointers of the reversed chain mirror
its `next` pointers. -/
theorem rev_backOk {h h2 : Heap α} :
    ∀ {ps : List Nat} {p stop : Option Nat},
      chainSeg h p ps.length stop = some ps →
      (∀ q ∈ ps, h2.get q = (h.get q).map Node.swapDir) →
      backOk h2 stop ps.reverse = true := by
  intro ps
  induction ps with
  | nil => intro p stop _ _; simp [backOk]
  | cons x xs ih =>
    intro p stop hc hswap
    obtain ⟨x2, nd, ps2, hp, hnd, hcons, hrest⟩ := chainSeg_succ hc
    subst hp
    injection hcons with hx hps
    subst hx
    subst hps
    have hih := ih hrest fun r hr => hswap r (by simp [hr])
    have hgx : h2.get x = some ⟨nd.value, nd.next, nd.back⟩ := by
      rw [hswap x (by simp), hnd]
      rfl
    have hnext : lastD stop xs.reverse = nd.next := by
      have hh := chain_head hrest
      unfold lastD
      rw [List.getLast?_reverse]
      cases xs with
      | nil => simpa using hh.symm
      | cons y ys => simp only [List.head?_cons]; simpa using hh.symm
    rw [List.reverse_cons, backOk_append]
    refine Bool.and_eq_true_iff.mpr ⟨hih, ?_⟩
    rw [hnext]
    simp [backOk, hgx]

/-- `List::reverse` on a well-formed list: swaps every chain node's pointer
pair and exchanges `head` and `tail`, producing a well-formed list whose
chain is the reverse. -/
theorem reverse_spec {h : Heap α} {t : ListS} {qs : List Nat}
    (hwf : wfB h t = true) (hc : chainOf h t = some qs) :
    ∃ h1, reverse h t = some (h1, ⟨t.len, t.tail, t.head⟩) ∧
      (∀ q, h1.get q = if q ∈ qs then (h.get q).map Node.swapDir else h.get q) ∧
      wfB h1 ⟨t.len, t.tail, t.head⟩ = true ∧
      chainOf h1 ⟨t.len, t.tail, t.head⟩ = some qs.reverse := by
  obtain ⟨qs2, hc2, hnd, hb, ht⟩ := wfB_elim hwf
  rw [hc] at hc2
  have hqs := Option.some.inj hc2
  subst hqs
  have hcs : chainSeg h t.head t.len none = some qs := hc
  have hlen : qs.length = t.len := chainSeg_length hcs
  have hcl : chainSeg h t.head qs.length none = some qs := by rw [hlen]; exact hcs
  by_cases h0 : t.len = 0
  · have hteq : t = ⟨0, none, none⟩ := wf_len_zero hwf h0
    have hqs0 : qs = [] := List.length_eq_zero.mp (by omega)
    subst hqs0
    have hts : (⟨t.len, t.tail, t.head⟩ : ListS) = t := by rw [hteq]
    refine ⟨h, ?_, by simp, ?_, ?_⟩
    · rw [hts]
      unfold reverse
      rw [if_pos h0]
    · rw [hts]
      exact hwf
    · rw [hts]
      simpa using hc
  · obtain ⟨h1, hloop, hchar⟩ := reverseLoop_spec (h := h) (p := t.head)
      (f := h.slots.length + 1) hcl hnd
      (by have := chain_length_le hcs hnd; omega)
    have hswap : ∀ q ∈ qs, h1.get q = (h.get q).map Node.swapDir := by
      intro q hq
      rw [hchar q, if_pos hq]
    refine ⟨h1, ?_, hchar, ?_, ?_⟩
    · unfold reverse
      rw [if_neg h0]
      simp only [Option.bind_eq_bind]
      rw [hloop]
      rfl
    · have hrc : chainSeg h1 (lastD none qs) qs.length none = some qs.reverse :=
      rev_chain hcl hb hswap
      have hlastd : lastD none qs = t.tail := by
        unfold lastD
        rw [← ht]
        cases htt : t.tail with
        | none =>
          exfalso
          rw [htt] at ht
          have : qs = [] := List.getLast?_eq_none_iff.mp ht.symm
          rw [this] at hlen
          simp at hlen
          omega
        | some a => rfl
      have hchain1 : chainOf h1 ⟨t.len, t.tail, t.head⟩ = some qs.reverse := by
        show chainSeg h1 t.tail t.len none = some qs.reverse
        rw [← hlastd, ← hlen]
        exact hrc
      refine wfB_intro hchain1 (List.nodup_reverse.mpr hnd) ?_ ?_
      · exact rev_backOk hcl hswap
      · show t.head = qs.reverse.getLast?
        rw [List.getLast?_reverse]
        exact chain_head_none hcs
    · have hrc : chainSeg h1 (lastD none qs) qs.length none = some qs.reverse :=
        rev_chain hcl hb hswap
      have hlastd : lastD none qs = t.tail := by
        unfold lastD
        rw [← ht]
        cases htt : t.tail with
        | none =>
          exfalso
          rw [htt] at ht
          have : qs = [] := List.getLast?_eq_none_iff.mp ht.symm
          rw [this] at hlen
          simp at hlen
          omega
        | some a => rfl
      show chainSeg h1 t.tail t.len none = some qs.reverse
      rw [← hlastd, ← hlen]
      exact hrc

/-- `List::append` on two well-formed, node-disjoint lists in one heap:
the chains are spliced, `this` ends up with both element sequences in order
and `other` ends up empty. -/
theorem append_spec {h : Heap α} {s1 s2 : ListS} {ps1 ps2 : List Nat}
    (hwf1 : wfB h s1 = true) (hwf2 : wfB h s2 = true)
    (hc1 : chainOf h s1 = some ps1) (hc2 : chainOf h s2 = some ps2)
    (hdisj : ∀ p ∈ ps1, p ∉ ps2) :
    ∃ h2 s3, append h s1 s2 = some (h2, s3, (⟨0, none, none⟩ : ListS)) ∧
      wfB h2 s3 = true ∧ s3.len = s1.len + s2.len ∧
      listVals h2 s3 = some (valsOf h ps1 ++ valsOf h ps2) := by
  obtain ⟨ps1b, hc1b, hnd1, hb1, ht1⟩ := wfB_elim hwf1
  rw [hc1] at hc1b
  have he1 := Option.some.inj hc1b
  subst he1
  obtain ⟨ps2b, hc2b, hnd2, hb2, ht2⟩ := wfB_elim hwf2
  rw [hc2] at hc2b
  have he2 := Option.some.inj hc2b
  subst he2
  have hcs1 : chainSeg h s1.head s1.len none = some ps1 := hc1
  have hcs2 : chainSeg h s2.head s2.len none = some ps2 := hc2
  have hlen1 : ps1.length = s1.len := chainSeg_length hcs1
  have hlen2 : ps2.length = s2.len := chainSeg_length hcs2
  by_cases h20 : s2.len = 0
  · have hs2eq : s2 = ⟨0, none, none⟩ := wf_len_zero hwf2 h20
    have hps2 : ps2 = [] := List.length_eq_zero.mp (by omega)
    subst hps2
    refine ⟨h, s1, ?_, hwf1, by omega, ?_⟩
    · unfold append
      rw [if_pos h20, hs2eq]
    · show listVals h s1 = some (valsOf h ps1 ++ valsOf h [])
      unfold listVals
      rw [hc1]
      simp [valsOf]
  · by_cases h10 : s1.len = 0
    · have hs1eq : s1 = ⟨0, none, none⟩ := wf_len_zero hwf1 h10
      have hps1 : ps1 = [] := List.length_eq_zero.mp (by omega)
      subst hps1
      refine ⟨h, s2, ?_, hwf2, by omega, ?_⟩
      · unfold append
        rw [if_neg h20, if_pos h10, hs1eq]
      · show listVals h s2 = some (valsOf h [] ++ valsOf h ps2)
        unfold listVals
        rw [hc2]
        simp [valsOf]
    · -- main branch: both lists non-empty
      obtain ⟨t1, htt⟩ : ∃ t1, s1.tail = some t1 := by
        cases htt : s1.tail with
        | none =>
          exfalso
          rw [htt] at ht1
          have : ps1 = [] := List.getLast?_eq_none_iff.mp ht1.symm
          rw [this] at hlen1
          simp at hlen1
          omega
        | some a => exact ⟨a, rfl⟩
      have hlast1 : ps1.getLast? = some t1 := by rw [← ht1, htt]
      have ht1mem : t1 ∈ ps1 := mem_of_getLast? hlast1
      obtain ⟨ndt, hgt1⟩ := chainSeg_live hcs1 t1 ht1mem
      obtain ⟨hd2, ps2t, hps2c⟩ : ∃ hd2 ps2t, ps2 = hd2 :: ps2t := by
        cases ps2 with
        | nil => exfalso; rw [List.length_nil] at hlen2; omega
        | cons a l => exact ⟨a, l, rfl⟩
      subst hps2c
      obtain ⟨hd2b, ndh, ps2t2, hp2, hgh2, hcons2, hrest2⟩ := chainSeg_succ
        (by rw [← hlen2] at hcs2; exact hcs2)
      injection hcons2 with hhd2 hps2t
      subst hhd2
      subst hps2t
      have hhd2mem : hd2 ∈ hd2 :: ps2t := by simp
      have hne : hd2 ≠ t1 := fun he => hdisj t1 ht1mem (he ▸ hhd2mem)
      have hlivet1 : t1 < h.slots.length := get_isLive hgt1
      set h3 := h.set t1 ⟨ndt.value, ndt.back, s2.head⟩ with hh3def
      have hg3hd2 : h3.get hd2 = some ndh := by
        rw [hh3def, get_set_ne h t1 hd2 _ hne]
        exact hgh2
      set h4 := h3.set hd2 ⟨ndh.value, some t1, ndh.next⟩ with hh4def
      have hg4 : ∀ q, q ≠ t1 → q ≠ hd2 → h4.get q = h.get q := by
        intro q hq1 hq2
        rw [hh4def, get_set_ne h3 hd2 q _ hq2, hh3def, get_set_ne h t1 q _ hq1]
      have hg4t1 : h4.get t1 = some ⟨ndt.value, ndt.back, s2.head⟩ := by
        rw [hh4def, get_set_ne h3 hd2 t1 _ (Ne.symm hne), hh3def]
        exact get_set_self h t1 _ hlivet1
      have hg4hd2 : h4.get hd2 = some ⟨ndh.value, some t1, ndh.next⟩ :=
        get_set_self h3 hd2 _ (get_isLive hg3hd2)
      have hg3 : ∀ q, q ≠ t1 → h3.get q = h.get q := by
        intro q hq1
        rw [hh3def, get_set_ne h t1 q _ hq1]
      have hg3t1 : h3.get t1 = some ⟨ndt.value, ndt.back, s2.head⟩ := by
        rw [hh3def]
        exact get_set_self h t1 _ hlivet1
      -- the spliced chain
      have hcl1 : chainSeg h s1.head ps1.length none = some ps1 := by
        rw [hlen1]; exact hcs1
      have hA : chainSeg h3 s1.head ps1.length s2.head = some ps1 :=
        chainSeg_setNext_last hcl1 hnd1 hlast1 hgt1
      have hA4 : chainSeg h4 s1.head ps1.length s2.head = some ps1 :=
        chainSeg_congr hA fun q hq => by
          rw [hh4def, get_set_ne h3 hd2 q _ (fun he => hdisj q hq (he ▸ hhd2mem))]
      have hB3 : chainSeg h3 s2.head (hd2 :: ps2t).length none = some (hd2 :: ps2t) := by
        refine chainSeg_congr (by rw [← hlen2] at hcs2; exact hcs2) fun q hq => ?_
        exact hg3 q (fun he => hdisj t1 ht1mem (he ▸ hq))
      have hB4 : chainSeg h4 s2.head (hd2 :: ps2t).length none = some (hd2 :: ps2t) := by
        refine chainSeg_congr_next hB3 fun q hq => ?_
        by_cases hqh : q = hd2
        · subst hqh
          rw [hg4hd2, hg3hd2]
          rfl
        · rw [hh4def, get_set_ne h3 hd2 q _ hqh]
      have hAB : chainSeg h4 s1.head (ps1.length + (hd2 :: ps2t).length) none =
          some (ps1 ++ hd2 :: ps2t) := chainSeg_append hA4 hB4
      have hchain4 : chainOf h4 ⟨s1.len + s2.len, s1.head, s2.tail⟩ =
          some (ps1 ++ hd2 :: ps2t) := by
        show chainSeg h4 s1.head (s1.len + s2.len) none = some (ps1 ++ hd2 :: ps2t)
        rw [← hlen1, ← hlen2]
        exact hAB
      -- backOk for the spliced chain
      have hbA : backOk h4 none ps1 = true := by
        rw [backOk_congr_back (g := h) fun q hq => ?_]
        · exact hb1
        · by_cases hqt : q = t1
          · subst hqt
            rw [hg4t1, hgt1]
            rfl
          · rw [hg4 q hqt (fun he => hdisj q hq (he ▸ hhd2mem))]
      have hbBtail : backOk h4 (some hd2) ps2t = backOk h (some hd2) ps2t := by
        refine backOk_congr_back fun q hq => ?_
        have hq2 : q ∈ hd2 :: ps2t := by simp [hq]
        rw [hg4 q (fun he => hdisj t1 ht1mem (he ▸ hq2))
          (fun he => (List.nodup_cons.mp hnd2).1 (he ▸ hq))]
      have hbBorig : backOk h (some hd2) ps2t = true := by
        have := hb2
        simp only [backOk, hgh2, Bool.and_eq_true] at this
        exact this.2
      have hbB : backOk h4 (some t1) (hd2 :: ps2t) = true := by
        simp only [backOk, hg4hd2]
        rw [hbBtail, hbBorig]
        simp
      have hback : backOk h4 none (ps1 ++ hd2 :: ps2t) = true := by
        rw [backOk_append]
        have hlastd : lastD none ps1 = some t1 := by
          unfold lastD
          rw [hlast1]
        rw [hlastd, hbA, hbB]
        rfl
      -- nodup and tail
      have hndall : (ps1 ++ hd2 :: ps2t).Nodup := hnd1.append hnd2 hdisj
      have htail : (⟨s1.len + s2.len, s1.head, s2.tail⟩ : ListS).tail =
          (ps1 ++ hd2 :: ps2t).getLast? := by
        show s2.tail = (ps1 ++ hd2 :: ps2t).getLast?
        rw [getLast?_append_right (List.cons_ne_nil hd2 ps2t), ← ht2]
      -- values
      have hvalsplit : valsOf h4 (ps1 ++ hd2 :: ps2t) =
          valsOf h4 ps1 ++ valsOf h4 (hd2 :: ps2t) := by
        simp [valsOf, List.filterMap_append]
      have hv1 : valsOf h4 ps1 = valsOf h ps1 := by
        refine valsOf_congr_value fun q hq => ?_
        by_cases hqt : q = t1
        · subst hqt
          rw [hg4t1, hgt1]
          rfl
        · rw [hg4 q hqt (fun he => hdisj q hq (he ▸ hhd2mem))]
      have hv2 : valsOf h4 (hd2 :: ps2t) = valsOf h (hd2 :: ps2t) := by
        refine valsOf_congr_value fun q hq => ?_
        by_cases hqh : q = hd2
        · subst hqh
          rw [hg4hd2, hgh2]
          rfl
        · rw [hg4 q (fun he => hdisj t1 ht1mem (he ▸ hq)) hqh]
      refine ⟨h4, ⟨s1.len + s2.len, s1.head, s2.tail⟩, ?_, ?_, rfl, ?_⟩
      · unfold append
        rw [if_neg h20, if_neg h10, htt]
        simp only [Option.bind_eq_bind, Option.some_bind]
        have hsetnext : nodeSetNext h t1 s2.head = some h3 := by
          simp [nodeSetNext, hgt1, hh3def]
        rw [hsetnext]
        simp only [Option.some_bind]
        rw [hp2]
        simp only [Option.some_bind]
        have hsetback : nodeSetBack h3 hd2 (some t1) = some h4 := by
          simp [nodeSetBack, hg3hd2, hh4def]
        rw [hsetback]
        rfl
      · exact wfB_intro hchain4 hndall hback htail
      · show listVals h4 ⟨s1.len + s2.len, s1.head, s2.tail⟩ =
          some (valsOf h ps1 ++ valsOf h (hd2 :: ps2t))
        unfold listVals
        rw [hchain4]
        rw [Option.map_some']
        rw [hvalsplit, hv1, hv2]

theorem disjB_elim {h : Heap α} {s t : ListS} (hd : disjB h s t = true) :
    ∃ ps qs, chainOf h s = some ps ∧ chainOf h t = some qs ∧ ∀ p ∈ ps, p ∉ qs := by
  cases hc1 : chainOf h s with
  | none =>
    exfalso
    unfold disjB at hd
    rw [hc1] at hd
    cases hc2 : chainOf h t with
    | none => rw [hc2] at hd; simp at hd
    | some qs => rw [hc2] at hd; simp at hd
  | some ps =>
    cases hc2 : chainOf h t with
    | none =>
      exfalso
      unfold disjB at hd
      rw [hc1, hc2] at hd
      simp at hd
    | some qs =>
      unfold disjB at hd
      rw [hc1, hc2] at hd
      simp only [decide_eq_true_eq] at hd
      exact ⟨ps, qs, rfl, rfl, hd⟩

/-- C9: `Stack::append` on well-formed, node-disjoint stacks `s` and `t`
(element sequences `vsS`, `vsT`, bottom first; the stack top is the last
element): it first reverses `t` in place and then transfers all of `t`'s
nodes after `s`'s, so the combined stack holds `vsS ++ vsT.reverse` and `t`
is left empty. -/
theorem c9_stack_append (h : Heap α) (s t : ListS) (vsS vsT : List α)
    (hwfS : wfB h s = true) (hwfT : wfB h t = true)
    (hvS : listVals h s = some vsS) (hvT : listVals h t = some vsT)
    (hdisj : disjB h s t = true) :
    ∃ h2 s3, stackAppend h s t = some (h2, s3, (⟨0, none, none⟩ : ListS)) ∧
      wfB h2 s3 = true ∧ s3.len = s.len + t.len ∧
      listVals h2 s3 = some (vsS ++ vsT.reverse) := by
  obtain ⟨ps, qs, hcs, hct, hdj⟩ := disjB_elim hdisj
  have hvsS : valsOf h ps = vsS := by
    unfold listVals at hvS
    rw [hcs] at hvS
    simpa using hvS
  have hvsT : valsOf h qs = vsT := by
    unfold listVals at hvT
    rw [hct] at hvT
    simpa using hvT
  obtain ⟨h1, hrev, hchar, hwfT1, hcT1⟩ := reverse_spec hwfT hct
  have hsame : ∀ q ∈ ps, h1.get q = h.get q := by
    intro q hq
    rw [hchar q, if_neg (hdj q hq)]
  have hcs1 : chainOf h1 s = some ps := by
    show chainSeg h1 s.head s.len none = some ps
    exact chainSeg_congr hcs hsame
  have hwfS1 : wfB h1 s = true := by
    obtain ⟨ps2, hc2, hnd, hb, ht⟩ := wfB_elim hwfS
    rw [hcs] at hc2
    have he := Option.some.inj hc2
    subst he
    refine wfB_intro hcs1 hnd ?_ ht
    rw [backOk_congr (g := h) hsame]
    exact hb
  have hdj1 : ∀ p ∈ ps, p ∉ qs.reverse := fun p hp hm =>
    hdj p hp (List.mem_reverse.mp hm)
  obtain ⟨h2, s3, happ, hwf3, hlen3, hvals3⟩ :=
    append_spec hwfS1 hwfT1 hcs1 hcT1 hdj1
  refine ⟨h2, s3, ?_, hwf3, hlen3, ?_⟩
  · unfold stackAppend
    simp only [Option.bind_eq_bind]
    rw [hrev]
    simp only [Option.some_bind]
    exact happ
  · rw [hvals3]
    have hv1 : valsOf h1 ps = vsS := by
      rw [valsOf_congr (g := h) hsame]
      exact hvsS
    have hv2 : valsOf h1 qs.reverse = vsT.reverse := by
      have hvc : valsOf h1 qs.reverse = valsOf h qs.reverse := by
        refine valsOf_congr_value fun q hq => ?_
        rw [hchar q, if_pos (List.mem_reverse.mp hq)]
        cases h.get q <;> rfl
      rw [hvc]
      show (qs.reverse.filterMap fun p => (h.get p).map Node.value) = vsT.reverse
      rw [List.filterMap_reverse]
      rw [← hvsT]
      rfl
    rw [hv1, hv2]

/-- Shared heap holding the stack `[1, 2, 3]` (bottom first; slots 0-2) and
the stack `[4, 5, 6]` (slots 3-5). -/
def hST : Heap Nat :=
  ⟨[some ⟨1, none, some 1⟩, some ⟨2, some 0, some 2⟩, some ⟨3, some 1, none⟩,
    some ⟨4, none, some 4⟩, some ⟨5, some 3, some 5⟩, some ⟨6, some 4, none⟩]⟩

/-- The stack `[1, 2, 3]` over `hST`. -/
def sS : ListS := ⟨3, some 0, some 2⟩

/-- The stack `[4, 5, 6]` over `hST`. -/
def sT : ListS := ⟨3, some 3, some 5⟩

/-- C9 witness: appending the stack `[4, 5, 6]` onto the stack `[1, 2, 3]`
yields a well-formed stack holding `[1, 2, 3] ++ reverse [4, 5, 6]`
(= `[1, 2, 3, 6, 5, 4]`) and leaves the donor stack empty. -/
theorem c9_stack_append_witness :
    ∃ h2 s3, stackAppend hST sS sT = some (h2, s3, (⟨0, none, none⟩ : ListS)) ∧
      wfB h2 s3 = true ∧ s3.len = sS.len + sT.len ∧
      listVals h2 s3 = some (([1, 2, 3] : List Nat) ++ List.reverse [4, 5, 6]) :=
  c9_stack_append hST sS sT [1, 2, 3] [4, 5, 6]
    (by decide) (by decide) (by decide) (by decide) (by decide)

end OwnStl
